import Mathlib

/-!
Shallow embedding of the synthesis-and-timing core of the repository:
the SSML chunker, chunk synthesizer and timeline accumulator of
`tts_pipeline.py`, and the display-interval builder of `video_maker.py`.

Python strings are modelled as `List Char`, Python floats as `ℚ`
(the arithmetic in question is addition and subtraction of finite decimal
values), fallible calls as `Except`, and the outcome of an external call
as an explicit input.
-/

namespace MR

/- ------------------------------------------------------------------
Chunker: `TTSPipeline._split_ssml` (tts_pipeline.py lines 43-62)
------------------------------------------------------------------ -/

/-- Characters of the opening wrapper tag `<speak>`. -/
def speakOpen : List Char := "<speak>".toList

/-- Characters of the closing wrapper tag `</speak>`. -/
def speakClose : List Char := "</speak>".toList

/-- Python `str.strip()`: remove leading and trailing whitespace. -/
def stripWS (l : List Char) : List Char :=
  ((l.dropWhile Char.isWhitespace).reverse.dropWhile Char.isWhitespace).reverse

/-- Length of the maximal prefix made of characters other than `"`,
the greedy `[^"]+` of the mark-tag regex. -/
def quoteRun : List Char → Nat
  | [] => 0
  | c :: rest => if c = '"' then 0 else quoteRun rest + 1

/-- Characters of the tag opening `<mark name="` (12 characters). -/
def markOpen : List Char := "<mark name=\"".toList

/-- Characters of the tag closing `"/>` (3 characters). -/
def markClose : List Char := "\"/>".toList

/-- If the regex `<mark name="[^"]+"/>` matches at the head of `s`,
the length of the (leftmost, greedy) match; `none` otherwise. -/
def tagLength (s : List Char) : Option Nat :=
  if s.take 12 = markOpen then
    let k := quoteRun (s.drop 12)
    if k = 0 then none
    else if (s.drop (12 + k)).take 3 = markClose then some (12 + k + 3) else none
  else none

/-- Worker for `splitMarks`, with fuel bounding the number of scan steps.
Each step consumes at least one character, so fuel `s.length` is enough;
the out-of-fuel default keeps the flatten-identity unconditional. -/
def splitMarksFuel : Nat → List Char → List Char → List (List Char)
  | 0, s, acc => [acc.reverse ++ s]
  | fuel + 1, s, acc =>
    match s with
    | [] => [acc.reverse]
    | c :: rest =>
      match tagLength (c :: rest) with
      | some n =>
          acc.reverse :: (c :: rest).take n :: splitMarksFuel fuel ((c :: rest).drop n) []
      | none => splitMarksFuel fuel rest (c :: acc)

/-- Python `re.split(r"(<mark name=\"[^\"]+\"/>)", ssml)`: the alternating
list of text pieces (possibly empty) and whole mark tags, scanning left to
right for non-overlapping matches. -/
def splitMarks (s : List Char) : List (List Char) := splitMarksFuel s.length s []

/-- Re-wrap a chunk's content: `f"<speak>{current}</speak>"`. -/
def wrap (content : List Char) : List Char := speakOpen ++ content ++ speakClose

/-- The greedy packing loop of `_split_ssml`: accumulate parts into
`current`; when adding the next part would exceed the budget, close the
current chunk first; a trailing non-empty accumulation is emitted at the
end. -/
def packChunks (maxLen : Nat) : List (List Char) → List Char → List (List Char)
  | [], current => if current.isEmpty then [] else [wrap current]
  | p :: ps, current =>
    if maxLen < current.length + p.length then
      wrap current :: packChunks maxLen ps p
    else
      packChunks maxLen ps (current ++ p)

/-- The chunker `TTSPipeline._split_ssml`: strip whitespace, strip an existing
`<speak>`/`</speak>` wrapper, return a single wrapped chunk when the
content fits the budget, else split on mark tags and greedily pack. -/
def split_ssml (ssml : List Char) (maxLen : Nat) : List (List Char) :=
  let s0 := stripWS ssml
  let s1 := if speakOpen.isPrefixOf s0 then s0.drop 7 else s0
  let s2 := if speakClose.isSuffixOf s1 then s1.take (s1.length - 8) else s1
  if s2.length ≤ maxLen then [wrap s2]
  else packChunks maxLen (splitMarks s2) []

/-- The text between the `<speak>` and `</speak>` wrappers of a chunk
(the de-wrapping step the spec's round-trip law talks about, performed
exactly like the wrapper-stripping in `_split_ssml`). -/
def dewrap (s : List Char) : List Char :=
  let s1 := if speakOpen.isPrefixOf s then s.drop 7 else s
  if speakClose.isSuffixOf s1 then s1.take (s1.length - 8) else s1

/- ------------------------------------------------------------------
Synthesizer and timeline accumulator (tts_pipeline.py lines 64-124)
------------------------------------------------------------------ -/

/-- One `{"markName": ..., "timeSeconds": ...}` record. -/
structure Timepoint where
  markName : String
  timeSeconds : ℚ
  deriving DecidableEq

/-- What `_synthesize_chunk` returns: the decoded audio's duration and the
chunk-local timepoints. -/
structure SynthResult where
  duration : ℚ
  timepoints : List Timepoint
  deriving DecidableEq

/-- The body of the TTS HTTP response: the optional `audioContent` field
and the optional `timepoints` field. -/
structure TTSData where
  audioContent : Option (List Nat)
  timepoints : Option (List Timepoint)

/-- The TTS HTTP response: its status (as checked by
`response.raise_for_status()`) and its JSON body. -/
structure TTSResponse where
  statusOk : Bool
  data : TTSData

/-- The errors `_synthesize_chunk` can raise: the HTTP error from
`raise_for_status` and the `RuntimeError` for a missing `audioContent`. -/
inductive SynthError where
  | httpError
  | noAudioContent
  deriving DecidableEq

/-- The synthesizer `TTSPipeline._synthesize_chunk`, as a function of the external call's
response; `audioDuration` stands for decoding the written MP3 bytes with
`AudioSegment` and measuring their duration. -/
def synthesize_chunk (resp : TTSResponse) (audioDuration : List Nat → ℚ) :
    Except SynthError SynthResult :=
  if resp.statusOk = true then
    match resp.data.audioContent with
    | none => Except.error SynthError.noAudioContent
    | some bytes => Except.ok ⟨audioDuration bytes, resp.data.timepoints.getD []⟩
  else Except.error SynthError.httpError

/-- The timeline-accumulation loop of `TTSPipeline.process_chapter`
(lines 102-112): starting from the given offset, rebase each chunk's
local timepoints by the running offset, then add the chunk's duration to
the offset.  Returns the accumulated timeline and the final offset. -/
def accumulate : List SynthResult → ℚ → List Timepoint × ℚ
  | [], offset => ([], offset)
  | r :: rest, offset =>
    let rebased := r.timepoints.map (fun tp => ⟨tp.markName, offset + tp.timeSeconds⟩)
    let next := accumulate rest (offset + r.duration)
    (rebased ++ next.1, next.2)

/-- The offset each chunk is rebased by: the sum of the durations of the
chunks before it (running-offset prefix sums). -/
def runningOffsets : ℚ → List ℚ → List ℚ
  | _, [] => []
  | off, d :: ds => off :: runningOffsets (off + d) ds

/-- The Timeline Accumulator as the spec describes it (refinement target):
each SynthesisResult's local timestamps, in order, shifted by the total
duration of the preceding chunks; the total duration is the sum of all
chunk durations. -/
def specTimelineAccumulator (rs : List SynthResult) : List Timepoint × ℚ :=
  (((rs.zip (runningOffsets 0 (rs.map SynthResult.duration))).map
      (fun p => p.1.timepoints.map (fun tp => ⟨tp.markName, p.2 + tp.timeSeconds⟩))).flatten,
   (rs.map SynthResult.duration).sum)

/-- A well-formed synthesis result: non-negative duration, chunk-local
timestamps in order, each within `[0, duration]`. -/
def wellFormedResult (r : SynthResult) : Prop :=
  0 ≤ r.duration ∧
  List.Chain' (· ≤ ·) (r.timepoints.map Timepoint.timeSeconds) ∧
  ∀ tp ∈ r.timepoints, 0 ≤ tp.timeSeconds ∧ tp.timeSeconds ≤ r.duration

instance (r : SynthResult) : Decidable (wellFormedResult r) := by
  unfold wellFormedResult
  infer_instance

/-- The batch loop of `TTSPipeline.process_all` (lines 126-136): each
chapter's run outcome is an input (the try-block either returns a result
or raises); successes are appended to the returned summary, failures go
to the error log (`logging.error`) and the loop continues. -/
def process_all {α : Type} : List (Nat × Except String α) → List (Nat × α) × List (Nat × String)
  | [] => ([], [])
  | (ch, out) :: rest =>
    let next := process_all rest
    match out with
    | Except.ok a => ((ch, a) :: next.1, next.2)
    | Except.error e => (next.1, (ch, e) :: next.2)

/- ------------------------------------------------------------------
Video timeline builder: `create_chapter_video` (video_maker.py)
------------------------------------------------------------------ -/

/-- The loader `_load_timepoints` (video_maker.py lines 17-21): sort the stored
records by `timeSeconds` (Python's stable `list.sort(key=...)`) and keep
the times. -/
def load_timepoints (records : List (String × ℚ)) : List ℚ :=
  (List.insertionSort (fun a b => a.2 ≤ b.2) records).map Prod.snd

/-- The boundary list of `create_chapter_video` (lines 51-65): the loaded
timepoints, truncated to the image count when there are fewer images than
transitions, with `0.0` inserted in front and the audio duration appended. -/
def buildBoundaries (records : List (String × ℚ)) (numImages : Nat) (dur : ℚ) :
    List ℚ :=
  let ts := load_timepoints records
  let ts2 := if numImages < ts.length then ts.take numImages else ts
  0 :: (ts2 ++ [dur])

/-- The clip-building loop (lines 67-76): walk consecutive boundary
pairs; stop (`break`) once the index reaches the image count; skip
(`continue`) pairs of non-positive duration; otherwise emit
`(start, end, imageIndex)`. -/
def buildClips : List ℚ → Nat → Nat → List (ℚ × ℚ × Nat)
  | b1 :: b2 :: rest, idx, numImages =>
    if numImages ≤ idx then []
    else if b2 - b1 ≤ 0 then buildClips (b2 :: rest) (idx + 1) numImages
    else (b1, b2, idx) :: buildClips (b2 :: rest) (idx + 1) numImages
  | _, _, _ => []

/-- The display intervals `create_chapter_video` assembles for a chapter,
as a function of the stored timeline records, the image count and the
audio duration. -/
def chapterClips (records : List (String × ℚ)) (numImages : Nat) (dur : ℚ) :
    List (ℚ × ℚ × Nat) :=
  buildClips (buildBoundaries records numImages dur) 0 numImages

/-- The step `CompositeVideoClip(clips, size=clips[0].size)` (line 79):
`clips[0]` on an empty list raises an `IndexError`; otherwise the clip
list is handed to the renderer. -/
def composeVideo (records : List (String × ℚ)) (numImages : Nat) (dur : ℚ) :
    Except String (List (ℚ × ℚ × Nat)) :=
  match chapterClips records numImages dur with
  | [] => Except.error ("IndexError: list index out of range")
  | c :: cs => Except.ok (c :: cs)

/- ------------------------------------------------------------------
Concrete inputs used by witnesses and counterexamples, and sorting
instances
------------------------------------------------------------------ -/

/-- Input used by the C9 scenario: chapter 1 fails, chapter 2 succeeds. -/
def exampleRuns : List (Nat × Except String Nat) :=
  [(1, Except.error ("boom")), (2, Except.ok 0)]

instance : IsTotal (String × ℚ) (fun a b => a.2 ≤ b.2) :=
  ⟨fun a b => le_total a.2 b.2⟩

instance : IsTrans (String × ℚ) (fun a b => a.2 ≤ b.2) :=
  ⟨fun _ _ _ h1 h2 => le_trans h1 h2⟩

/-- Concrete document used by the C5 witness. -/
def docB : List Char := "ab<mark name=\"p1\"/>cd".toList

/-- The mark tag occurring in `docB`. -/
def tagB : List Char := "<mark name=\"p1\"/>".toList

/-- Concrete document used by the C6 counterexample and witness: ten
characters of text followed by one mark tag. -/
def docA : List Char := "aaaaaaaaaa<mark name=\"p1\"/>".toList

/-- The over-length chunk of the C6 scenario. -/
def chunkA : List Char := "<speak>aaaaaaaaaa</speak>".toList

/- ------------------------------------------------------------------
Shared lemmas: timeline accumulator
------------------------------------------------------------------ -/

/-- Closed form of the accumulation loop: each chunk's timepoints shifted
by the running prefix sum of durations, final offset the initial offset
plus the total duration. -/
theorem accumulate_closed_form (rs : List SynthResult) (off : ℚ) :
    accumulate rs off =
      (((rs.zip (runningOffsets off (rs.map SynthResult.duration))).map
          (fun p => p.1.timepoints.map (fun tp => ⟨tp.markName, p.2 + tp.timeSeconds⟩))).flatten,
       off + (rs.map SynthResult.duration).sum) := by
  induction rs generalizing off with
  | nil => simp [accumulate, runningOffsets]
  | cons r rest ih =>
    simp [accumulate, runningOffsets, ih (off + r.duration), add_assoc]

/-- The times produced for `r :: rest` are the rebased times of `r`
followed by the times produced for `rest` at the advanced offset. -/
theorem accumulate_cons_times (r : SynthResult) (rest : List SynthResult) (off : ℚ) :
    (accumulate (r :: rest) off).1.map Timepoint.timeSeconds =
      r.timepoints.map (fun tp => off + tp.timeSeconds) ++
        (accumulate rest (off + r.duration)).1.map Timepoint.timeSeconds := by
  simp [accumulate, Function.comp_def]

/-- Monotonicity of the accumulated times for well-formed inputs, with
the extra invariant that every produced time is at least the offset. -/
theorem accumulate_chain (rs : List SynthResult) (off : ℚ)
    (h : ∀ r ∈ rs, wellFormedResult r) :
    List.Chain' (· ≤ ·) ((accumulate rs off).1.map Timepoint.timeSeconds) ∧
    ∀ t ∈ (accumulate rs off).1.map Timepoint.timeSeconds, off ≤ t := by
  induction rs generalizing off with
  | nil => simp [accumulate]
  | cons r rest ih =>
    obtain ⟨hd, hchain, hbound⟩ := h r (by simp)
    have hrest := ih (off + r.duration) (fun x hx => h x (by simp [hx]))
    rw [accumulate_cons_times]
    constructor
    · rw [List.chain'_append]
      refine ⟨?_, hrest.1, ?_⟩
      · rw [List.chain'_map]
        rw [List.chain'_map] at hchain
        exact hchain.imp (fun a b hab => by exact add_le_add_left hab off)
      · intro x hx y hy
        have hxmem : x ∈ r.timepoints.map (fun tp => off + tp.timeSeconds) :=
          List.mem_of_getLast?_eq_some (Option.mem_def.mp hx)
        obtain ⟨tp, htp, rfl⟩ := List.mem_map.mp hxmem
        have h1 : off + tp.timeSeconds ≤ off + r.duration :=
          add_le_add_left (hbound tp htp).2 off
        have h2 : off + r.duration ≤ y := hrest.2 y (List.mem_of_mem_head? hy)
        exact h1.trans h2
    · intro t ht
      rcases List.mem_append.mp ht with h1 | h2
      · obtain ⟨tp, htp, rfl⟩ := List.mem_map.mp h1
        exact le_add_of_nonneg_right (hbound tp htp).1
      · exact (le_add_of_nonneg_right hd).trans (hrest.2 t h2)

/- ------------------------------------------------------------------
Shared lemmas: batch loop
------------------------------------------------------------------ -/


/- ------------------------------------------------------------------
Shared lemmas: timepoint sorting
------------------------------------------------------------------ -/


/-- The loaded time list is non-decreasing. -/
theorem load_timepoints_sorted (records : List (String × ℚ)) :
    List.Sorted (· ≤ ·) (load_timepoints records) :=
  List.Pairwise.map Prod.snd (fun _ _ hab => hab)
    (List.sorted_insertionSort (fun a b : String × ℚ => a.2 ≤ b.2) records)

/-- The loaded time list is a permutation of the stored times. -/
theorem load_timepoints_perm (records : List (String × ℚ)) :
    List.Perm (load_timepoints records) (records.map Prod.snd) :=
  (List.perm_insertionSort _ records).map Prod.snd

/- ------------------------------------------------------------------
Claims C1, C2, C3, C9, C10
------------------------------------------------------------------ -/

/-- C1 (confirmed): the Timeline Accumulator rebases each chunk's local
marker timestamps by the running offset — it refines the spec's
prefix-sum description for every input — and on the two-chunk scenario
(chunk 1: duration 4.0, local (p1, 1.0); chunk 2: duration 3.0, local
(p2, 0.5)) it produces the timeline [(p1, 1.0), (p2, 4.5)] with total
duration 7.0. -/
theorem c1_timeline_accumulator :
    (∀ rs : List SynthResult, accumulate rs 0 = specTimelineAccumulator rs) ∧
    accumulate [⟨4, [⟨"p1", 1⟩]⟩, ⟨3, [⟨"p2", 1/2⟩]⟩] 0 =
      ([⟨"p1", 1⟩, ⟨"p2", 9/2⟩], 7) := by
  constructor
  · intro rs
    rw [accumulate_closed_form]
    simp [specTimelineAccumulator]
  · simp [accumulate]
    norm_num

/-- C2 (counterexample): a single synthesis result whose local times
decrease is accepted by the accumulation loop and yields a decreasing
absolute-time sequence; no `TimelineInconsistency` (or any other error)
exists anywhere in the code, so the violating input is silently
accepted instead of raising. -/
theorem c2_counterexample :
    ¬ List.Chain' (· ≤ ·)
      (((accumulate [⟨1, [⟨"p1", 2⟩, ⟨"p2", 1⟩]⟩] 0).1).map Timepoint.timeSeconds) := by
  simp [accumulate, List.chain'_cons, List.chain'_singleton]

/-- C2 (amended): the accumulation loop performs no monotonicity check;
the produced absolute-time sequence is non-decreasing whenever every
input result is well formed (non-negative duration, ordered local times,
each within [0, duration]). -/
theorem c2_monotone_of_wellformed (rs : List SynthResult)
    (h : ∀ r ∈ rs, wellFormedResult r) :
    List.Chain' (· ≤ ·) ((accumulate rs 0).1.map Timepoint.timeSeconds) :=
  (accumulate_chain rs 0 h).1

/-- Witness for C2's amended theorem at the C1 scenario input. -/
theorem c2_witness :
    (∀ r ∈ [(⟨4, [⟨"p1", 1⟩]⟩ : SynthResult), ⟨3, [⟨"p2", 1/2⟩]⟩], wellFormedResult r) ∧
    List.Chain' (· ≤ ·)
      ((accumulate [⟨4, [⟨"p1", 1⟩]⟩, ⟨3, [⟨"p2", 1/2⟩]⟩] 0).1.map Timepoint.timeSeconds) := by
  have hwf : ∀ r ∈ [(⟨4, [⟨"p1", 1⟩]⟩ : SynthResult), ⟨3, [⟨"p2", 1/2⟩]⟩], wellFormedResult r := by
    intro r hr
    simp at hr
    rcases hr with rfl | rfl <;> refine ⟨by norm_num, by simp, ?_⟩ <;>
      · intro tp htp
        simp at htp
        subst htp
        norm_num
  exact ⟨hwf, c2_monotone_of_wellformed _ hwf⟩

/-- C3 (counterexample): a well-statused response that carries audio but
no `timepoints` field is accepted by `_synthesize_chunk` with an empty
timepoint list (`data.get("timepoints", [])`), not rejected — even though
the synthesized chunk may contain markers. -/
theorem c3_counterexample :
    synthesize_chunk ⟨true, ⟨some [0], none⟩⟩ (fun _ => 2) = Except.ok ⟨2, []⟩ := rfl

/-- C3 (amended): `_synthesize_chunk` raises on an erroring external call
(`raise_for_status`) and on a response without `audioContent`, but a
response omitting the `timepoints` field is accepted with an empty
timestamp list. -/
theorem c3_synthesize_errors :
    (∀ (d : List Nat → ℚ) (td : TTSData),
        synthesize_chunk ⟨false, td⟩ d = Except.error SynthError.httpError) ∧
    (∀ (d : List Nat → ℚ) (tps : Option (List Timepoint)),
        synthesize_chunk ⟨true, ⟨none, tps⟩⟩ d = Except.error SynthError.noAudioContent) ∧
    (∀ (d : List Nat → ℚ) (bytes : List Nat),
        synthesize_chunk ⟨true, ⟨some bytes, none⟩⟩ d = Except.ok ⟨d bytes, []⟩) :=
  ⟨fun _ _ => rfl, fun _ _ => rfl, fun _ _ => rfl⟩

/-- C9 (counterexample): with chapter 1 failing and chapter 2 succeeding,
the summary `process_all` returns after the run lists only chapter 2;
the failed chapter is absent from it (it is only logged when the failure
happens), so the returned summary does not list which chapters failed. -/
theorem c9_counterexample :
    ¬ ∀ p ∈ exampleRuns,
        p.2.isOk = false → p.1 ∈ (process_all exampleRuns).1.map Prod.fst := by
  intro h
  have := h (1, Except.error ("boom")) (by simp [exampleRuns]) rfl
  simp [process_all, exampleRuns] at this

/-- C9 (amended): one chapter's failure never prevents the remaining
chapters from running: the loop wraps each chapter in try/except, the
returned summary is exactly the successful chapters in order, and the
error log is exactly the failed chapters with their errors in order. -/
theorem c9_batch_isolation {α : Type} (runs : List (Nat × Except String α)) :
    process_all runs =
      (runs.filterMap (fun p =>
          match p.2 with
          | Except.ok a => some (p.1, a)
          | Except.error _ => none),
       runs.filterMap (fun p =>
          match p.2 with
          | Except.ok _ => none
          | Except.error e => some (p.1, e))) := by
  induction runs with
  | nil => rfl
  | cons p rest ih =>
    obtain ⟨ch, out⟩ := p
    cases out <;> simp [process_all, ih]

/-- C10 (confirmed): `_load_timepoints` sorts the stored records by
`timeSeconds` before they are used as boundaries, so for every stored
timeline — ordered or not — the loaded time list is non-decreasing and
is exactly the stored multiset of times in ascending order. -/
theorem c10_sorted_timepoints :
    ∀ records : List (String × ℚ),
      List.Sorted (· ≤ ·) (load_timepoints records) ∧
      List.Perm (load_timepoints records) (records.map Prod.snd) := by
  intro records
  exact ⟨load_timepoints_sorted records, load_timepoints_perm records⟩

/- ------------------------------------------------------------------
Shared lemmas: chunker
------------------------------------------------------------------ -/

/-- Splitting on mark tags loses nothing: flattening the pieces gives
back the accumulator (reversed) followed by the unscanned input. -/
theorem flatten_splitMarksFuel :
    ∀ (fuel : Nat) (s acc : List Char),
      (splitMarksFuel fuel s acc).flatten = acc.reverse ++ s := by
  intro fuel
  induction fuel with
  | zero => intro s acc; simp [splitMarksFuel]
  | succ m ih =>
    intro s acc
    match s with
    | [] => simp [splitMarksFuel]
    | c :: rest =>
      rw [splitMarksFuel]
      cases h : tagLength (c :: rest) with
      | some k =>
        simp only [List.flatten_cons, ih ((c :: rest).drop k) []]
        simp [← List.append_assoc, List.take_append_drop]
      | none =>
        rw [ih rest (c :: acc)]
        simp

/-- The token list of `re.split` flattens back to the input. -/
theorem flatten_splitMarks (s : List Char) : (splitMarks s).flatten = s := by
  simpa using flatten_splitMarksFuel s.length s []

theorem wrap_assoc (c : List Char) : wrap c = speakOpen ++ (c ++ speakClose) := by
  rw [wrap, List.append_assoc]

theorem speakOpen_isPrefixOf_wrap (c : List Char) :
    speakOpen.isPrefixOf (wrap c) = true := by
  rw [wrap_assoc]
  exact List.isPrefixOf_iff_prefix.mpr ( List.prefix_append _ _)

theorem wrap_drop7 (c : List Char) : (wrap c).drop 7 = c ++ speakClose := by
  rw [wrap_assoc]
  have h : speakOpen.length = 7 := rfl
  rw [← h]
  exact List.drop_left _ _

theorem speakClose_isSuffixOf (c : List Char) :
    speakClose.isSuffixOf (c ++ speakClose) = true :=
  List.isSuffixOf_iff_suffix.mpr (List.suffix_append _ _)

theorem take_sub8 (c : List Char) :
    (c ++ speakClose).take ((c ++ speakClose).length - 8) = c := by
  have h8 : speakClose.length = 8 := rfl
  have h : (c ++ speakClose).length - 8 = c.length := by
    simp [List.length_append, h8]
  rw [h]
  exact List.take_left _ _

/-- De-wrapping inverts wrapping. -/
theorem dewrap_wrap (c : List Char) : dewrap (wrap c) = c := by
  simp only [dewrap, speakOpen_isPrefixOf_wrap, if_true, wrap_drop7,
    speakClose_isSuffixOf, take_sub8]

theorem wrap_cons (c : List Char) :
    wrap c = '<' :: ("speak>".toList ++ (c ++ speakClose)) := rfl

theorem wrap_reverse (c : List Char) :
    (wrap c).reverse = '>' :: ("kaeps/<".toList ++ (c.reverse ++ speakOpen.reverse)) := by
  show ((speakOpen ++ c) ++ speakClose).reverse = _
  rw [List.reverse_append, List.reverse_append]
  rfl

/-- A wrapped chunk has no leading or trailing whitespace, so
`str.strip()` leaves it unchanged. -/
theorem stripWS_wrap (c : List Char) : stripWS (wrap c) = wrap c := by
  have hlt : Char.isWhitespace '<' = false := rfl
  have hgt : Char.isWhitespace '>' = false := rfl
  have h1 : (wrap c).dropWhile Char.isWhitespace = wrap c := by
    rw [wrap_cons, List.dropWhile_cons, hlt]
    simp
  have h2 : (wrap c).reverse.dropWhile Char.isWhitespace = (wrap c).reverse := by
    rw [wrap_reverse, List.dropWhile_cons, hgt]
    simp
  unfold stripWS
  rw [h1, h2, List.reverse_reverse]

/-- Evaluating `_split_ssml` on a wrapped document: the strip and de-wrap steps
recover the document, then either a single chunk or the greedy packing. -/
theorem split_ssml_wrap (doc : List Char) (b : Nat) :
    split_ssml (wrap doc) b =
      if doc.length ≤ b then [wrap doc] else packChunks b (splitMarks doc) [] := by
  simp only [split_ssml, stripWS_wrap, speakOpen_isPrefixOf_wrap, if_true, wrap_drop7,
    speakClose_isSuffixOf, take_sub8]

/-- De-wrapping and concatenating the packed chunks recovers the pending
accumulation followed by all remaining parts. -/
theorem flatten_dewrap_packChunks (b : Nat) :
    ∀ (parts : List (List Char)) (current : List Char),
      ((packChunks b parts current).map dewrap).flatten = current ++ parts.flatten := by
  intro parts
  induction parts with
  | nil =>
    intro current
    by_cases h : current.isEmpty
    · simp [packChunks, h, List.isEmpty_iff.mp h]
    · simp [packChunks, h, dewrap_wrap]
  | cons p ps ih =>
    intro current
    rw [packChunks]
    by_cases h : b < current.length + p.length
    · rw [if_pos h]
      simp [dewrap_wrap, ih p]
    · rw [if_neg h, ih (current ++ p)]
      simp

/-- C4 (confirmed): round-trip law of the Chunker — for every marked
document and every budget (a fortiori every budget at least the longest
marker tag's length), concatenating the de-wrapped contents of the chunks
`_split_ssml` produces reproduces the original marked text exactly. -/
theorem c4_roundtrip :
    ∀ (doc : List Char) (b : Nat),
      ((split_ssml (wrap doc) b).map dewrap).flatten = doc := by
  intro doc b
  rw [split_ssml_wrap]
  by_cases h : doc.length ≤ b
  · simp [h, dewrap_wrap]
  · rw [if_neg h]
    simp [flatten_dewrap_packChunks, flatten_splitMarks]

/-- Splitting the head token of a flattened grouping into two adjacent
tokens preserves the per-group concatenations. -/
theorem flatten_split_head {α : Type} :
    ∀ (gs : List (List (List α))) (l : List (List α)) (a b : List α),
      gs.flatten = (a ++ b) :: l →
      ∃ gs2 : List (List (List α)),
        gs2.flatten = a :: b :: l ∧ gs2.map List.flatten = gs.map List.flatten := by
  intro gs
  induction gs with
  | nil => intro l a b h; simp at h
  | cons g rest ih =>
    intro l a b h
    match g with
    | [] =>
      rw [List.flatten_cons, List.nil_append] at h
      obtain ⟨gs2, h1, h2⟩ := ih l a b h
      exact ⟨[] :: gs2, by simp [h1], by simp [h2]⟩
    | x :: xs =>
      rw [List.flatten_cons, List.cons_append] at h
      injection h with hx hrest
      refine ⟨(a :: b :: xs) :: rest, ?_, ?_⟩
      · simp [hrest]
      · simp [hx, List.append_assoc]

/-- Every chunk content the greedy packer emits is the concatenation of a
group of whole tokens: the emitted contents are in bijection with a
partition of the (non-empty) tokens, `current` counting as the pending
first token. -/
theorem packChunks_partition (b : Nat) :
    ∀ (parts : List (List Char)) (current : List Char),
      ∃ groups : List (List (List Char)),
        groups.flatten = (current :: parts).filter (fun t => !t.isEmpty) ∧
        (packChunks b parts current).map dewrap = groups.map List.flatten := by
  intro parts
  induction parts with
  | nil =>
    intro current
    by_cases h : current.isEmpty
    · exact ⟨[], by simp [List.filter_cons, h], by simp [packChunks, h]⟩
    · exact ⟨[[current]], by simp [List.filter_cons, h], by simp [packChunks, h, dewrap_wrap]⟩
  | cons p ps ih =>
    intro current
    rw [packChunks]
    by_cases h : b < current.length + p.length
    · rw [if_pos h]
      obtain ⟨gs, h1, h2⟩ := ih p
      by_cases hcur : current.isEmpty
      · refine ⟨[] :: gs, ?_, ?_⟩
        · simp [List.filter_cons, hcur, h1]
        · simp [dewrap_wrap, h2, List.isEmpty_iff.mp hcur]
      · refine ⟨[current] :: gs, ?_, ?_⟩
        · simp [List.filter_cons, hcur, h1]
        · simp [dewrap_wrap, h2]
    · rw [if_neg h]
      obtain ⟨gs, h1, h2⟩ := ih (current ++ p)
      by_cases hcur : current.isEmpty
      · have hc0 : current = [] := List.isEmpty_iff.mp hcur
        subst hc0
        refine ⟨gs, ?_, h2⟩
        simpa [List.filter_cons] using h1
      · by_cases hp : p.isEmpty
        · have hp0 : p = [] := List.isEmpty_iff.mp hp
          subst hp0
          refine ⟨gs, ?_, h2⟩
          simpa [List.filter_cons, hcur] using h1
        · have hne : ((current ++ p).isEmpty) = false := by
            cases hcp : (current ++ p).isEmpty with
            | false => rfl
            | true =>
              exfalso
              rcases List.append_eq_nil.mp (List.isEmpty_iff.mp hcp) with ⟨hc, -⟩
              exact hcur (by simp [hc])
          rw [List.filter_cons, if_pos (by simp [hne])] at h1
          obtain ⟨gs2, hg1, hg2⟩ := flatten_split_head gs _ current p h1
          refine ⟨gs2, ?_, by rw [h2, hg2]⟩
          rw [hg1]
          simp [List.filter_cons, hcur, hp]

/-- A non-empty token list flattens to the same string after dropping the
empty tokens. -/
theorem flatten_filter_nonempty {α : Type} :
    ∀ l : List (List α), (l.filter (fun t => !t.isEmpty)).flatten = l.flatten := by
  intro l
  induction l with
  | nil => rfl
  | cons a rest ih =>
    by_cases h : a.isEmpty
    · have h0 : a = [] := List.isEmpty_iff.mp h
      subst h0
      simp [List.filter_cons, ih]
    · simp [List.filter_cons, h, ih]

/-- A member of a group is an infix of the group's concatenation. -/
theorem flatten_contains_of_mem {α : Type} :
    ∀ (g : List (List α)) (t : List α), t ∈ g → List.IsInfix t g.flatten := by
  intro g
  induction g with
  | nil => intro t ht; simp at ht
  | cons x xs ih =>
    intro t ht
    rcases List.mem_cons.mp ht with rfl | hmem
    · exact ⟨[], xs.flatten, by simp⟩
    · exact (ih t hmem).trans ⟨x, [], by simp⟩

/-- The empty string is not a mark tag. -/
theorem tagLength_nil : tagLength ([] : List Char) = none := rfl

/-- C5 (confirmed): no marker tag is split across two chunks — the
de-wrapped chunk contents form a partition of the document's (non-empty)
`re.split` tokens into groups of whole tokens, and consequently every
whole-tag token appears intact inside a single chunk. -/
theorem c5_no_tag_split :
    ∀ (doc : List Char) (b : Nat),
      (∃ groups : List (List (List Char)),
          groups.flatten = (splitMarks doc).filter (fun t => !t.isEmpty) ∧
          (split_ssml (wrap doc) b).map dewrap = groups.map List.flatten) ∧
      (∀ t ∈ splitMarks doc, tagLength t = some t.length →
          ∃ c ∈ split_ssml (wrap doc) b, List.IsInfix t (dewrap c)) := by
  intro doc b
  have hmain : ∃ groups : List (List (List Char)),
      groups.flatten = (splitMarks doc).filter (fun t => !t.isEmpty) ∧
      (split_ssml (wrap doc) b).map dewrap = groups.map List.flatten := by
    rw [split_ssml_wrap]
    by_cases h : doc.length ≤ b
    · rw [if_pos h]
      refine ⟨[(splitMarks doc).filter (fun t => !t.isEmpty)], by simp, ?_⟩
      simp [dewrap_wrap, flatten_filter_nonempty, flatten_splitMarks]
    · rw [if_neg h]
      obtain ⟨gs, h1, h2⟩ := packChunks_partition b (splitMarks doc) []
      exact ⟨gs, by simpa [List.filter_cons] using h1, h2⟩
  refine ⟨hmain, ?_⟩
  intro t ht htag
  obtain ⟨groups, hg1, hg2⟩ := hmain
  have htne : t ≠ [] := by
    intro h0
    rw [h0, tagLength_nil] at htag
    cases htag
  have htf : t ∈ groups.flatten := by
    rw [hg1]
    exact List.mem_filter.mpr ⟨ht, by simp [htne]⟩
  obtain ⟨g, hgmem, htg⟩ := List.mem_flatten.mp htf
  have hflat : g.flatten ∈ (split_ssml (wrap doc) b).map dewrap := by
    rw [hg2]
    exact List.mem_map.mpr ⟨g, hgmem, rfl⟩
  obtain ⟨c, hc, hcg⟩ := List.mem_map.mp hflat
  exact ⟨c, hc, hcg ▸ flatten_contains_of_mem g t htg⟩


/-- Witness for C5 at a concrete document containing one mark tag. -/
theorem c5_witness :
    (tagB ∈ splitMarks docB ∧ tagLength tagB = some tagB.length) ∧
    ∃ c ∈ split_ssml (wrap docB) 100, List.IsInfix tagB (dewrap c) :=
  ⟨by decide, (c5_no_tag_split docB 100).2 tagB (by decide) (by decide)⟩

/-- Chunk contents the packer emits: each is `wrap` of a content that
either fits the budget, is the pending accumulation, or is a single
whole token. -/
theorem packChunks_mem (b : Nat) :
    ∀ (parts : List (List Char)) (current : List Char) (c : List Char),
      c ∈ packChunks b parts current →
      ∃ x, c = wrap x ∧ (x.length ≤ b ∨ x = current ∨ x ∈ parts) := by
  intro parts
  induction parts with
  | nil =>
    intro current c hc
    by_cases h : current.isEmpty
    · simp [packChunks, h] at hc
    · rw [packChunks, if_neg (by simp [h])] at hc
      have : c = wrap current := by simpa using hc
      exact ⟨current, this, Or.inr (Or.inl rfl)⟩
  | cons p ps ih =>
    intro current c hc
    rw [packChunks] at hc
    by_cases h : b < current.length + p.length
    · rw [if_pos h] at hc
      rcases List.mem_cons.mp hc with rfl | hmem
      · exact ⟨current, rfl, Or.inr (Or.inl rfl)⟩
      · obtain ⟨x, hx, hdisj⟩ := ih p c hmem
        refine ⟨x, hx, ?_⟩
        rcases hdisj with h1 | h2 | h3
        · exact Or.inl h1
        · exact Or.inr (Or.inr (by simp [h2]))
        · exact Or.inr (Or.inr (by simp [h3]))
    · rw [if_neg h] at hc
      obtain ⟨x, hx, hdisj⟩ := ih (current ++ p) c hc
      refine ⟨x, hx, ?_⟩
      rcases hdisj with h1 | h2 | h3
      · exact Or.inl h1
      · refine Or.inl ?_
        rw [h2, List.length_append]
        omega
      · exact Or.inr (Or.inr (by simp [h3]))

theorem wrap_length (x : List Char) : (wrap x).length = x.length + 15 := by
  have h7 : speakOpen.length = 7 := rfl
  have h8 : speakClose.length = 8 := rfl
  simp [wrap, List.length_append, h7, h8]
  omega


/-- C6 (counterexample): with budget 20, `_split_ssml` on `docA` emits
the chunk `<speak>aaaaaaaaaa</speak>` whose rendered length (25,
wrapper included) exceeds the budget although its content (10
characters) is not an over-length marker-free segment: the code bounds
only the content length, not the rendered length. -/
theorem c6_counterexample :
    ¬ ∀ c ∈ split_ssml (wrap docA) 20,
        c.length ≤ 20 ∨
        (dewrap c ∈ splitMarks docA ∧ tagLength (dewrap c) ≠ some (dewrap c).length ∧
         20 < (dewrap c).length) := by
  decide

/-- C6 (amended): each chunk's rendered length is its content length
plus the 15 wrapper characters, and the content length never exceeds the
budget except when the chunk consists of a single `re.split` token (an
over-length marker-free text segment — or a lone mark tag when the
budget is smaller than the tag) that alone exceeds it. -/
theorem c6_chunk_budget :
    ∀ (doc : List Char) (b : Nat) (c : List Char),
      c ∈ split_ssml (wrap doc) b →
      c.length = (dewrap c).length + 15 ∧
      ((dewrap c).length ≤ b ∨ dewrap c ∈ splitMarks doc) := by
  intro doc b c hc
  rw [split_ssml_wrap] at hc
  by_cases h : doc.length ≤ b
  · rw [if_pos h] at hc
    have hcw : c = wrap doc := by simpa using hc
    subst hcw
    rw [dewrap_wrap]
    exact ⟨wrap_length doc, Or.inl h⟩
  · rw [if_neg h] at hc
    obtain ⟨x, hx, hdisj⟩ := packChunks_mem b (splitMarks doc) [] c hc
    subst hx
    rw [dewrap_wrap]
    refine ⟨wrap_length x, ?_⟩
    rcases hdisj with h1 | h2 | h3
    · exact Or.inl h1
    · exact Or.inl (by simp [h2])
    · exact Or.inr h3


/-- Witness for C6's amended theorem at the concrete chunk of `docA`. -/
theorem c6_witness :
    (chunkA ∈ split_ssml (wrap docA) 20) ∧
    (chunkA.length = (dewrap chunkA).length + 15 ∧
     ((dewrap chunkA).length ≤ 20 ∨ dewrap chunkA ∈ splitMarks docA)) :=
  ⟨by decide, c6_chunk_budget docA 20 chunkA (by decide)⟩

/- ------------------------------------------------------------------
Shared lemmas: video timeline builder
------------------------------------------------------------------ -/

/-- Every emitted clip has positive duration: non-positive candidate
intervals are skipped by the `continue`. -/
theorem buildClips_pos :
    ∀ (bs : List ℚ) (idx n : Nat) (c : ℚ × ℚ × Nat),
      c ∈ buildClips bs idx n → c.1 < c.2.1 := by
  intro bs
  induction bs with
  | nil => intro idx n c hc; simp [buildClips] at hc
  | cons b1 tail ih =>
    intro idx n c hc
    cases tail with
    | nil => simp [buildClips] at hc
    | cons b2 rest =>
      rw [buildClips] at hc
      by_cases h1 : n ≤ idx
      · rw [if_pos h1] at hc; simp at hc
      · rw [if_neg h1] at hc
        by_cases h2 : b2 - b1 ≤ 0
        · rw [if_pos h2] at hc
          exact ih (idx + 1) n c hc
        · rw [if_neg h2] at hc
          rcases List.mem_cons.mp hc with rfl | hmem
          · exact sub_pos.mp (not_le.mp h2)
          · exact ih (idx + 1) n c hmem

/-- If the loop runs to the end of the boundaries (no break) over
non-decreasing boundaries and emits nothing, all boundaries were equal:
the last boundary equals the first. -/
theorem buildClips_nil_getLast :
    ∀ (tail : List ℚ) (b : ℚ) (idx n : Nat),
      idx + tail.length ≤ n →
      List.Chain' (· ≤ ·) (b :: tail) →
      buildClips (b :: tail) idx n = [] →
      (b :: tail).getLast? = some b := by
  intro tail
  induction tail with
  | nil => intro b idx n _ _ _; rfl
  | cons b2 rest ih =>
    intro b idx n hbrk hch hnil
    have hidx : ¬ n ≤ idx := by simp at hbrk ⊢; omega
    rw [buildClips, if_neg hidx] at hnil
    by_cases h2 : b2 - b ≤ 0
    · rw [if_pos h2] at hnil
      have hb : b = b2 :=
        le_antisymm (List.chain'_cons.mp hch).1 (sub_nonpos.mp h2)
      have := ih b2 (idx + 1) n (by simp at hbrk ⊢; omega) (List.chain'_cons.mp hch).2 hnil
      rw [List.getLast?_cons_cons, this, hb]
    · rw [if_neg h2] at hnil
      cases hnil

/-- With no break and non-decreasing boundaries, the first emitted clip
starts at the first boundary (any earlier dropped candidates were
zero-length). -/
theorem buildClips_head :
    ∀ (tail : List ℚ) (b : ℚ) (idx n : Nat) (c : ℚ × ℚ × Nat) (cs : List (ℚ × ℚ × Nat)),
      idx + tail.length ≤ n →
      List.Chain' (· ≤ ·) (b :: tail) →
      buildClips (b :: tail) idx n = c :: cs →
      c.1 = b := by
  intro tail
  induction tail with
  | nil => intro b idx n c cs _ _ h; simp [buildClips] at h
  | cons b2 rest ih =>
    intro b idx n c cs hbrk hch heq
    have hidx : ¬ n ≤ idx := by simp at hbrk ⊢; omega
    rw [buildClips, if_neg hidx] at heq
    by_cases h2 : b2 - b ≤ 0
    · rw [if_pos h2] at heq
      have hb : b = b2 :=
        le_antisymm (List.chain'_cons.mp hch).1 (sub_nonpos.mp h2)
      rw [hb]
      exact ih b2 (idx + 1) n c cs (by simp at hbrk ⊢; omega) (List.chain'_cons.mp hch).2 heq
    · rw [if_neg h2] at heq
      have : c = (b, b2, idx) := ((List.cons.injEq _ _ _ _).mp heq.symm).1
      rw [this]

/-- With no break and non-decreasing boundaries, the last emitted clip
ends at the last boundary (any later dropped candidates were
zero-length). -/
theorem buildClips_getLast :
    ∀ (tail : List ℚ) (b : ℚ) (idx n : Nat) (c : ℚ × ℚ × Nat),
      idx + tail.length ≤ n →
      List.Chain' (· ≤ ·) (b :: tail) →
      (buildClips (b :: tail) idx n).getLast? = some c →
      (b :: tail).getLast? = some c.2.1 := by
  intro tail
  induction tail with
  | nil => intro b idx n c _ _ h; simp [buildClips] at h
  | cons b2 rest ih =>
    intro b idx n c hbrk hch hlast
    have hidx : ¬ n ≤ idx := by simp at hbrk ⊢; omega
    have hbrk2 : (idx + 1) + rest.length ≤ n := by simp at hbrk ⊢; omega
    have hch2 : List.Chain' (· ≤ ·) (b2 :: rest) := (List.chain'_cons.mp hch).2
    rw [buildClips, if_neg hidx] at hlast
    by_cases h2 : b2 - b ≤ 0
    · rw [if_pos h2] at hlast
      rw [List.getLast?_cons_cons]
      exact ih b2 (idx + 1) n c hbrk2 hch2 hlast
    · rw [if_neg h2] at hlast
      cases hrec : buildClips (b2 :: rest) (idx + 1) n with
      | nil =>
        rw [hrec] at hlast
        have hc : c = (b, b2, idx) := by
          have := hlast
          simp at this
          exact this.symm
        have hall := buildClips_nil_getLast rest b2 (idx + 1) n hbrk2 hch2 hrec
        rw [List.getLast?_cons_cons, hall, hc]
      | cons c2 cs2 =>
        rw [hrec, List.getLast?_cons_cons] at hlast
        rw [List.getLast?_cons_cons]
        refine ih b2 (idx + 1) n c hbrk2 hch2 ?_
        rw [hrec]
        exact hlast

/-- With no break and non-decreasing boundaries, consecutive emitted
clips are contiguous: each ends where the next starts. -/
theorem buildClips_chain :
    ∀ (tail : List ℚ) (b : ℚ) (idx n : Nat),
      idx + tail.length ≤ n →
      List.Chain' (· ≤ ·) (b :: tail) →
      List.Chain' (fun a c : ℚ × ℚ × Nat => a.2.1 = c.1) (buildClips (b :: tail) idx n) := by
  intro tail
  induction tail with
  | nil => intro b idx n _ _; simp [buildClips]
  | cons b2 rest ih =>
    intro b idx n hbrk hch
    have hidx : ¬ n ≤ idx := by simp at hbrk ⊢; omega
    have hbrk2 : (idx + 1) + rest.length ≤ n := by simp at hbrk ⊢; omega
    have hch2 : List.Chain' (· ≤ ·) (b2 :: rest) := (List.chain'_cons.mp hch).2
    rw [buildClips, if_neg hidx]
    by_cases h2 : b2 - b ≤ 0
    · rw [if_pos h2]
      exact ih b2 (idx + 1) n hbrk2 hch2
    · rw [if_neg h2]
      rw [List.chain'_cons']
      refine ⟨?_, ih b2 (idx + 1) n hbrk2 hch2⟩
      intro y hy
      cases hrec : buildClips (b2 :: rest) (idx + 1) n with
      | nil => rw [hrec] at hy; cases hy
      | cons z zs =>
        rw [hrec] at hy
        have hz : y = z := by
          have := hy
          simp at this
          exact this.symm
        have := buildClips_head rest b2 (idx + 1) n z zs hbrk2 hch2 hrec
        rw [hz]
        exact this.symm

/- ------------------------------------------------------------------
Claims C7, C8
------------------------------------------------------------------ -/

/-- C7 (counterexample): a valid one-marker timeline ([(p1, 1.0)]),
one image and total duration 5.0: the `break` at `idx >= len(images)`
cuts the final interval, so the produced sequence is [(0, 1.0, 0)] —
it does not end at the chapter's total audio duration 5.0. -/
theorem c7_counterexample :
    ¬ (List.Chain' (fun a b : ℚ × ℚ × Nat => a.2.1 = b.1)
          (chapterClips [(("p1" : String), 1)] 1 5) ∧
       (chapterClips [(("p1" : String), 1)] 1 5).head?.map Prod.fst = some 0 ∧
       (chapterClips [(("p1" : String), 1)] 1 5).getLast?.map (fun c => c.2.1) = some 5) := by
  have h : chapterClips [(("p1" : String), 1)] 1 5 = [(0, 1, 0)] := by
    norm_num [chapterClips, buildBoundaries, load_timepoints, List.insertionSort,
      List.orderedInsert, buildClips]
  rw [h]
  intro hcl
  have := hcl.2.2
  simp at this

/-- C8 (counterexample): timeline [(p1, 0.0)], two images and total
duration 0: every candidate interval has non-positive duration, all are
dropped, and `CompositeVideoClip(clips, size=clips[0].size)` then raises
an `IndexError` on the empty clip list — the run does not complete
without error. -/
theorem c8_counterexample :
    composeVideo [(("p1" : String), 0)] 2 0 =
      Except.error ("IndexError: list index out of range") := by
  norm_num [composeVideo, chapterClips, buildBoundaries, load_timepoints,
    List.insertionSort, List.orderedInsert, buildClips]

/-- C7 (amended): for a timeline whose times lie in [0, D] with strictly
more images than timeline records and positive duration D, the produced
intervals are non-empty, contiguous, start at 0 and end at D.  (When the
image count is at most the record count the `break` drops the final
interval and the sequence ends at a marker time instead — see the
counterexample.) -/
theorem c7_contiguous_cover (records : List (String × ℚ)) (n : Nat) (D : ℚ)
    (hin : ∀ p ∈ records, 0 ≤ p.2 ∧ p.2 ≤ D)
    (hlen : records.length < n) (hD : 0 < D) :
    chapterClips records n D ≠ [] ∧
    List.Chain' (fun a b : ℚ × ℚ × Nat => a.2.1 = b.1) (chapterClips records n D) ∧
    (chapterClips records n D).head?.map Prod.fst = some 0 ∧
    (chapterClips records n D).getLast?.map (fun c => c.2.1) = some D := by
  have hlents : (load_timepoints records).length = records.length := by
    rw [load_timepoints, List.length_map]
    exact (List.perm_insertionSort _ records).length_eq
  have hbs : buildBoundaries records n D = 0 :: (load_timepoints records ++ [D]) := by
    rw [buildBoundaries]
    have hnot : ¬ n < (load_timepoints records).length := by omega
    simp [hnot]
  have hmem : ∀ t ∈ load_timepoints records, 0 ≤ t ∧ t ≤ D := by
    intro t ht
    rw [load_timepoints] at ht
    obtain ⟨p, hp, hpt⟩ := List.mem_map.mp ht
    have hpmem : p ∈ records := ((List.perm_insertionSort _ records).mem_iff).mp hp
    exact hpt ▸ hin p hpmem
  have hpair : List.Pairwise (· ≤ ·) (0 :: (load_timepoints records ++ [D])) := by
    rw [List.pairwise_cons]
    constructor
    · intro y hy
      rcases List.mem_append.mp hy with h1 | h1
      · exact (hmem y h1).1
      · have : y = D := by simpa using h1
        rw [this]
        exact hD.le
    · rw [List.pairwise_append]
      refine ⟨load_timepoints_sorted records, by simp, ?_⟩
      intro x hx y hy
      have : y = D := by simpa using hy
      rw [this]
      exact (hmem x hx).2
  have hchain : List.Chain' (· ≤ ·) (0 :: (load_timepoints records ++ [D])) :=
    hpair.chain'
  have hbrk : 0 + (load_timepoints records ++ [D]).length ≤ n := by
    simp [hlents]
    omega
  have hlastbs : (0 :: (load_timepoints records ++ [D])).getLast? = some D := by
    rw [show (0 : ℚ) :: (load_timepoints records ++ [D]) =
      ((0 : ℚ) :: load_timepoints records) ++ [D] from by simp]
    exact List.getLast?_concat _
  have hne : chapterClips records n D ≠ [] := by
    intro hnil
    rw [chapterClips, hbs] at hnil
    have hlast0 := buildClips_nil_getLast _ 0 0 n hbrk hchain hnil
    rw [hlastbs] at hlast0
    exact hD.ne.symm (Option.some.inj hlast0)
  refine ⟨hne, ?_, ?_, ?_⟩
  · rw [chapterClips, hbs]
    exact buildClips_chain _ 0 0 n hbrk hchain
  · cases hcl : chapterClips records n D with
    | nil => exact absurd hcl hne
    | cons c cs =>
      have hcl2 : buildClips (0 :: (load_timepoints records ++ [D])) 0 n = c :: cs := by
        rw [← hbs, ← chapterClips]
        exact hcl
      have hhd := buildClips_head _ 0 0 n c cs hbrk hchain hcl2
      simp [hhd]
  · cases hcl : chapterClips records n D with
    | nil => exact absurd hcl hne
    | cons c cs =>
      obtain ⟨cl, hclast⟩ :=
        Option.isSome_iff_exists.mp
          ((List.getLast?_isSome).mpr (by simp) : ((c :: cs).getLast?).isSome)
      have hcl2 : (buildClips (0 :: (load_timepoints records ++ [D])) 0 n).getLast? = some cl := by
        rw [← hbs, ← chapterClips, hcl]
        exact hclast
      have hlastc := buildClips_getLast _ 0 0 n cl hbrk hchain hcl2
      rw [hlastbs] at hlastc
      have hclD : cl.2.1 = D := (Option.some.inj hlastc).symm
      rw [hclast]
      simp [hclD]

/-- Witness for C7's amended theorem: timeline [(p1, 1.0)], two images,
duration 5.0 produce the intervals [(0, 1, 0), (1, 5, 1)]. -/
theorem c7_witness :
    chapterClips [(("p1" : String), 1)] 2 5 ≠ [] ∧
    List.Chain' (fun a b : ℚ × ℚ × Nat => a.2.1 = b.1)
      (chapterClips [(("p1" : String), 1)] 2 5) ∧
    (chapterClips [(("p1" : String), 1)] 2 5).head?.map Prod.fst = some 0 ∧
    (chapterClips [(("p1" : String), 1)] 2 5).getLast?.map (fun c => c.2.1) = some 5 :=
  c7_contiguous_cover [(("p1" : String), 1)] 2 5
    (by intro p hp; simp at hp; rw [hp]; norm_num) (by norm_num) (by norm_num)

/-- C8 (amended): `create_chapter_video` drops every candidate interval
of non-positive duration (each emitted interval is strictly increasing),
and when at least one interval survives, the video step completes and
hands the clip list on; when every candidate is dropped, the empty clip
list makes `clips[0]` raise an `IndexError` (see the counterexample). -/
theorem c8_nonpositive_dropped :
    ∀ (records : List (String × ℚ)) (n : Nat) (D : ℚ),
      (∀ c ∈ chapterClips records n D, c.1 < c.2.1) ∧
      (chapterClips records n D ≠ [] →
        composeVideo records n D = Except.ok (chapterClips records n D)) := by
  intro records n D
  constructor
  · intro c hc
    exact buildClips_pos _ 0 n c hc
  · intro h
    unfold composeVideo
    cases hcl : chapterClips records n D with
    | nil => exact absurd hcl h
    | cons c cs => rfl

/-- Witness for C8's amended theorem at the C7 witness input. -/
theorem c8_witness :
    ((0 : ℚ), (1 : ℚ), 0) ∈ chapterClips [(("p1" : String), 1)] 2 5 ∧
    ((0 : ℚ) < 1 ∧
     composeVideo [(("p1" : String), 1)] 2 5 =
       Except.ok (chapterClips [(("p1" : String), 1)] 2 5)) := by
  have hcl : chapterClips [(("p1" : String), 1)] 2 5 = [(0, 1, 0), (1, 5, 1)] := by
    norm_num [chapterClips, buildBoundaries, load_timepoints, List.insertionSort,
      List.orderedInsert, buildClips]
  have hmem : ((0 : ℚ), (1 : ℚ), 0) ∈ chapterClips [(("p1" : String), 1)] 2 5 := by
    rw [hcl]
    simp
  refine ⟨hmem, ?_, ?_⟩
  · exact (c8_nonpositive_dropped [(("p1" : String), 1)] 2 5).1 ((0 : ℚ), (1 : ℚ), 0) hmem
  · exact (c8_nonpositive_dropped [(("p1" : String), 1)] 2 5).2 (by rw [hcl]; simp)

end MR
